import Mathlib

set_option maxRecDepth 100000

/-!
Verification of the Kushn repository (a directory-tree content-hash manifest
generator written in Rust) against its natural-language specification.

The development shallowly embeds the two Rust source files:

* `src/lib.rs` — the library: `calculate_file_hash`, `build_file_ignore_patterns`,
  `process_file`, `process_directory` (error-propagating, `KushnError`);
* `src/main.rs` — the standalone binary: its own `calculate_file_hash`,
  `process_file`, `process_directory` (error-swallowing, returns a plain `Vec`)
  and the manifest-writing `main`.

Modelling conventions:

* Bytes are `Nat` values (always below 256 where produced by the model);
  machine 32-bit arithmetic inside SHA-256 is `Nat` arithmetic reduced
  `% 2^32` at every step.
* The filesystem seen by a traversal is an explicit tree (`FNode`), with a
  file's read outcome given as `Option (List Nat)`: `none` models an I/O
  failure when the file is opened or read (`fs::File::open` / `io::copy`),
  `some bytes` a successful read of those bytes.  Symbolic links are followed
  by the walker in the source, so the tree is the already-resolved view.
* The platform is Unix-like: the path separator produced by the walker is '/'
  and `path::is_separator` recognises exactly '/'.
* Ambient process state is threaded explicitly as `Env` (the current working
  directory read by `env::current_dir`).
* The `glob` crate (version 0.3) is embedded token-for-token:
  `Pattern::new`'s parser (including its error positions and messages) and
  the three-valued backtracking matcher of `matches_from`, with
  `MatchOptions::new()` = case-sensitive, separators and leading dots not
  required to be literal.
-/

namespace Kushn

/-! ## SHA-256 (the `sha2` crate's `Sha256`, as used by `calculate_file_hash`) -/

/-- Reduce to a 32-bit word, the implicit wrap-around of Rust `u32` arithmetic. -/
def w32 (n : Nat) : Nat := n % 4294967296

/-- 32-bit addition with wrap-around. -/
def add32 (a b : Nat) : Nat := (a + b) % 4294967296

/-- Rotate a 32-bit word right by `n` bits. -/
def rotr (n x : Nat) : Nat := w32 ((x >>> n) ||| (x <<< (32 - n)))

/-- Bitwise complement of a 32-bit word. -/
def not32 (x : Nat) : Nat := x ^^^ 4294967295

/-- SHA-256 Ch function. -/
def shaCh (x y z : Nat) : Nat := (x &&& y) ^^^ (not32 x &&& z)

/-- SHA-256 Maj function. -/
def shaMaj (x y z : Nat) : Nat := (x &&& y) ^^^ (x &&& z) ^^^ (y &&& z)

/-- SHA-256 big sigma 0. -/
def bigSigma0 (x : Nat) : Nat := rotr 2 x ^^^ rotr 13 x ^^^ rotr 22 x

/-- SHA-256 big sigma 1. -/
def bigSigma1 (x : Nat) : Nat := rotr 6 x ^^^ rotr 11 x ^^^ rotr 25 x

/-- SHA-256 small sigma 0. -/
def smallSigma0 (x : Nat) : Nat := rotr 7 x ^^^ rotr 18 x ^^^ (x >>> 3)

/-- SHA-256 small sigma 1. -/
def smallSigma1 (x : Nat) : Nat := rotr 17 x ^^^ rotr 19 x ^^^ (x >>> 10)

/-- The 64 SHA-256 round constants of FIPS 180-4, in decimal. -/
def shaK : List Nat :=
  [1116352408, 1899447441, 3049323471, 3921009573, 961987163,
   1508970993, 2453635748, 2870763221, 3624381080, 310598401,
   607225278, 1426881987, 1925078388, 2162078206, 2614888103,
   3248222580, 3835390401, 4022224774, 264347078, 604807628,
   770255983, 1249150122, 1555081692, 1996064986, 2554220882,
   2821834349, 2952996808, 3210313671, 3336571891, 3584528711,
   113926993, 338241895, 666307205, 773529912, 1294757372,
   1396182291, 1695183700, 1986661051, 2177026350, 2456956037,
   2730485921, 2820302411, 3259730800, 3345764771, 3516065817,
   3600352804, 4094571909, 275423344, 430227734, 506948616,
   659060556, 883997877, 958139571, 1322822218, 1537002063,
   1747873779, 1955562222, 2024104815, 2227730452, 2361852424,
   2428436474, 2756734187, 3204031479, 3329325298]

/-- The SHA-256 working state: eight 32-bit words. -/
structure Hash8 where
  a : Nat
  b : Nat
  c : Nat
  d : Nat
  e : Nat
  f : Nat
  g : Nat
  h : Nat
deriving DecidableEq, Repr

/-- The SHA-256 initial hash value of FIPS 180-4, in decimal. -/
def shaH0 : Hash8 :=
  ⟨1779033703, 3144134277, 1013904242, 2773480762,
   1359893119, 2600822924, 528734635, 1541459225⟩

/-- One SHA-256 compression round. -/
def shaRound (st : Hash8) (k w : Nat) : Hash8 :=
  let t1 := (st.h + bigSigma1 st.e + shaCh st.e st.f st.g + k + w) % 4294967296
  let t2 := (bigSigma0 st.a + shaMaj st.a st.b st.c) % 4294967296
  ⟨add32 t1 t2, st.a, st.b, st.c, add32 st.d t1, st.e, st.f, st.g⟩

/-- Extend the 16-word message schedule to 64 words (`k` words still to add). -/
def extendSchedule : Nat → List Nat → List Nat
  | 0, w => w
  | Nat.succ k, w =>
    let n := w.length
    let next := (smallSigma1 (w.getD (n - 2) 0) + w.getD (n - 7) 0 +
                 smallSigma0 (w.getD (n - 15) 0) + w.getD (n - 16) 0) % 4294967296
    extendSchedule k (w ++ [next])

/-- Pack a list of bytes into big-endian 32-bit words, four bytes per word. -/
def bytesToWords : List Nat → List Nat
  | b0 :: b1 :: b2 :: b3 :: rest => (b0 * 16777216 + b1 * 65536 + b2 * 256 + b3) :: bytesToWords rest
  | _ => []

/-- Split a byte list into 64-byte blocks, structurally recursive on a fuel
that starts at the list length (every step consumes at least one element, so
the fuel never runs out on the reachable inputs). -/
def blocks64Go : Nat → List Nat → List (List Nat)
  | _, [] => []
  | 0, _ :: _ => []
  | fuel + 1, b :: rest => ((b :: rest).take 64) :: blocks64Go fuel ((b :: rest).drop 64)

/-- Split a byte list into 64-byte blocks. -/
def blocks64 (l : List Nat) : List (List Nat) := blocks64Go l.length l

/-- Compress one 64-byte block into the running state. -/
def compressBlock (st : Hash8) (block : List Nat) : Hash8 :=
  let w := extendSchedule 48 (bytesToWords block)
  let fin := ((shaK.zip w).foldl (fun s kw => shaRound s kw.1 kw.2) st)
  ⟨add32 st.a fin.a, add32 st.b fin.b, add32 st.c fin.c, add32 st.d fin.d,
   add32 st.e fin.e, add32 st.f fin.f, add32 st.g fin.g, add32 st.h fin.h⟩

/-- Big-endian byte expansion of a number, `n` bytes wide. -/
def natToBytesBE : Nat → Nat → List Nat
  | 0, _ => []
  | Nat.succ k, v => (v >>> (8 * k)) % 256 :: natToBytesBE k v

/-- SHA-256 padding: append 0x80, zeros to 56 mod 64, then the 64-bit bit length. -/
def shaPad (msg : List Nat) : List Nat :=
  let padZeros := (64 - (msg.length + 9) % 64) % 64
  msg ++ [128] ++ List.replicate padZeros 0 ++ natToBytesBE 8 (8 * msg.length)

/-- The four big-endian bytes of a 32-bit word. -/
def wordToBytes (w : Nat) : List Nat :=
  [(w >>> 24) % 256, (w >>> 16) % 256, (w >>> 8) % 256, w % 256]

/-- SHA-256 digest of a byte list as 32 bytes. -/
def sha256Bytes (msg : List Nat) : List Nat :=
  let fin := (blocks64 (shaPad msg)).foldl compressBlock shaH0
  wordToBytes fin.a ++ wordToBytes fin.b ++ wordToBytes fin.c ++ wordToBytes fin.d ++
  wordToBytes fin.e ++ wordToBytes fin.f ++ wordToBytes fin.g ++ wordToBytes fin.h

/-- One lowercase hexadecimal digit. -/
def hexDigitChar : Nat → Char
  | 0 => '0' | 1 => '1' | 2 => '2' | 3 => '3' | 4 => '4' | 5 => '5' | 6 => '6' | 7 => '7'
  | 8 => '8' | 9 => '9' | 10 => 'a' | 11 => 'b' | 12 => 'c' | 13 => 'd' | 14 => 'e' | _ => 'f'

/-- Two lowercase hex digits of one byte, as printed per byte by Rust `{:02x}`
(leading zeros preserved). -/
def byteToHex (b : Nat) : List Char := [hexDigitChar (b / 16 % 16), hexDigitChar (b % 16)]

/-- Lowercase hex string of a SHA-256 digest, the `format!("{:x}", hash_result)`
of `calculate_file_hash` (the `sha2` digest's `LowerHex` prints every byte as
two lowercase hex digits). -/
def sha256Hex (msg : List Nat) : String :=
  String.mk ((sha256Bytes msg).flatMap byteToHex)

/-- The bytes of an ASCII string, as Rust reads a file's raw content. -/
def strBytes (s : String) : List Nat := s.data.map Char.toNat

/-! ## The `glob` crate, version 0.3

`glob::Pattern` is a compiled token list; `Pattern::new` is a left-to-right
tokenizer that can fail with a positioned `PatternError`, and matching is the
three-valued backtracking interpreter `matches_from`.  The embedding below
follows the crate's source; the only representational change is that the
parser's backward index probe `chars[i - count - 1]` (the character just
before a `**` run) is carried forward as the `prev` argument, which always
holds the most recently consumed pattern character. -/

/-- A compiled segment of a glob pattern's character class. -/
inductive CharSpecifier where
  | singleChar (c : Char)
  | charRange (lo hi : Char)
deriving DecidableEq, Repr

/-- One compiled glob pattern token. -/
inductive PatternToken where
  | char (c : Char)
  | anyChar
  | anySequence
  | anyRecursiveSequence
  | anyWithin (cs : List CharSpecifier)
  | anyExcept (cs : List CharSpecifier)
deriving DecidableEq, Repr

/-- The crate's `PatternError`: a position in the source string and a static
message. -/
structure PatternError where
  pos : Nat
  msg : String
deriving DecidableEq, Repr

/-- Message for a run of three or more stars. -/
def errWildcards : String := "wildcards are either regular `*` or recursive `**`"

/-- Message for a `**` not forming a whole path component. -/
def errRecursiveWildcards : String := "recursive wildcards must form a single path component"

/-- Message for an unclosed or degenerate character range. -/
def errInvalidRange : String := "invalid range pattern"

/-- A compiled glob pattern (the `original` string and `is_recursive` flag of
the crate's struct play no part in matching and are omitted). -/
structure Pattern where
  tokens : List PatternToken
deriving DecidableEq, Repr

/-- The crate's `parse_char_specifiers`: greedy three-character ranges
`a-b`, otherwise single characters. -/
def parseCharSpecifiers : List Char → List CharSpecifier
  | a :: '-' :: b :: rest => .charRange a b :: parseCharSpecifiers rest
  | a :: rest => .singleChar a :: parseCharSpecifiers rest
  | [] => []

/-- Number of leading `'*'` characters. -/
def countStars : List Char → Nat
  | [] => 0
  | c :: rest => if c = '*' then countStars rest + 1 else 0

/-- Index of the first `']'`, the parser's forward search for a range close. -/
def findClose : List Char → Option Nat
  | [] => none
  | c :: rest => if c = ']' then some 0 else (findClose rest).map (· + 1)

/-- Push `AnyRecursiveSequence`, collapsing a repetition exactly as the crate
does: the push is skipped only when more than one token has been emitted and
the most recent one is already `AnyRecursiveSequence` (the accumulator is kept
in reverse emission order). -/
def pushRecursive (acc : List PatternToken) : List PatternToken :=
  if acc.length > 1 ∧ acc.head? = some .anyRecursiveSequence then acc
  else .anyRecursiveSequence :: acc

/-- The tokenizer loop of `Pattern::new`, structurally recursive on an
explicit fuel (every step consumes at least one character, so any fuel
exceeding the remaining length is enough; the fuel-exhausted branch is
unreachable from `parseFrom`).  `i` is the absolute position of the next
character, `prev` the most recently consumed pattern character (`none` at
the start), `rest` the remaining characters and `acc` the emitted tokens in
reverse order. -/
def parseGo (fuel : Nat) (i : Nat) (prev : Option Char) (rest : List Char)
    (acc : List PatternToken) : Except PatternError (List PatternToken) :=
  match fuel with
  | 0 => .ok acc.reverse
  | fuel + 1 =>
    match rest with
    | [] => .ok acc.reverse
    | c :: rs =>
      if c = '?' then parseGo fuel (i + 1) (some '?') rs (.anyChar :: acc)
      else if c = '*' then
        let n := countStars rs + 1
        let after := rs.drop (n - 1)
        if n > 2 then .error ⟨i + 2, errWildcards⟩
        else if n = 2 then
          -- `**` must be bounded by separators or the ends of the pattern
          if i = 0 ∨ prev = some '/' then
            -- it is followed by a '/', consumed with it; or the pattern ends here
            if after.head? = some '/' then
              parseGo fuel (i + n + 1) (some '/') (rs.drop n) (pushRecursive acc)
            else if after = [] then .ok (pushRecursive acc).reverse
            else .error ⟨i + n, errRecursiveWildcards⟩
          else .error ⟨i - 1, errRecursiveWildcards⟩
        else parseGo fuel (i + 1) (some '*') after (.anySequence :: acc)
      else if c = '[' then
        if rest.length ≥ 4 ∧ rs.head? = some '!' then
          match findClose (rs.drop 2) with
          | none => .error ⟨i, errInvalidRange⟩
          | some j =>
            parseGo fuel (i + j + 4) (some ']') (rs.drop (j + 3))
              (.anyExcept (parseCharSpecifiers ((rs.drop 1).take (j + 1))) :: acc)
        else if rest.length ≥ 3 ∧ rs.head? ≠ some '!' then
          match findClose (rs.drop 1) with
          | none => .error ⟨i, errInvalidRange⟩
          | some j =>
            parseGo fuel (i + j + 3) (some ']') (rs.drop (j + 2))
              (.anyWithin (parseCharSpecifiers (rs.take (j + 1))) :: acc)
        else .error ⟨i, errInvalidRange⟩
      else parseGo fuel (i + 1) (some c) rs (.char c :: acc)

/-- The tokenizer at its canonical (always sufficient) fuel. -/
def parseFrom (i : Nat) (prev : Option Char) (rest : List Char) (acc : List PatternToken) :
    Except PatternError (List PatternToken) :=
  parseGo (rest.length + 1) i prev rest acc

/-- The crate's `Pattern::new`. -/
def patternNew (s : String) : Except PatternError Pattern :=
  (parseFrom 0 none s.data []).map Pattern.mk

/-- The crate's `MatchOptions`. -/
structure MatchOptions where
  caseSensitive : Bool
  requireLiteralSeparator : Bool
  requireLiteralLeadingDot : Bool
deriving DecidableEq, Repr

/-- `MatchOptions::new()`: case-sensitive, separators and leading dots need
not be matched literally. -/
def matchOptionsNew : MatchOptions := ⟨true, false, false⟩

/-- The crate's three-valued match outcome. -/
inductive MatchResult where
  | isMatch
  | subPatternDoesntMatch
  | entirePatternDoesntMatch
deriving DecidableEq, Repr

/-- Rust's `char::is_ascii`. -/
def isAsciiChar (c : Char) : Bool := c.toNat ≤ 127

/-- ASCII lowercasing, as `char::to_ascii_lowercase`. -/
def toAsciiLower (c : Char) : Char :=
  if 'A' ≤ c ∧ c ≤ 'Z' then Char.ofNat (c.toNat + 32) else c

/-- ASCII uppercasing, as `char::to_ascii_uppercase`. -/
def toAsciiUpper (c : Char) : Char :=
  if 'a' ≤ c ∧ c ≤ 'z' then Char.ofNat (c.toNat - 32) else c

/-- The crate's `chars_eq` on a non-Windows platform. -/
def charsEq (a b : Char) (caseSensitive : Bool) : Bool :=
  if !caseSensitive ∧ isAsciiChar a ∧ isAsciiChar b then toAsciiLower a = toAsciiLower b
  else a = b

/-- The crate's `in_char_specifiers` (its case-insensitive range branch is
guarded by `is_ascii`, so ASCII case mapping is exact). -/
def inCharSpecifiers (specifiers : List CharSpecifier) (c : Char) (opts : MatchOptions) : Bool :=
  specifiers.any fun s =>
    match s with
    | .singleChar sc => charsEq c sc opts.caseSensitive
    | .charRange lo hi =>
      (if !opts.caseSensitive ∧ isAsciiChar c ∧ isAsciiChar lo ∧ isAsciiChar hi then
        let lo2 := toAsciiLower lo
        let hi2 := toAsciiLower hi
        if lo2 ≠ toAsciiUpper lo2 ∧ hi2 ≠ toAsciiUpper hi2 then
          let c2 := toAsciiLower c
          decide (lo2 ≤ c2 ∧ c2 ≤ hi2)
        else false
      else false) || decide (lo ≤ c ∧ c ≤ hi)

/-- Match one non-sequence token against one character. -/
def tokenMatchesChar (opts : MatchOptions) (followsSep : Bool) (tok : PatternToken) (c : Char) :
    Bool :=
  let isSep := c = '/'
  match tok with
  | .char c2 => charsEq c c2 opts.caseSensitive
  | .anyChar =>
    !((opts.requireLiteralSeparator ∧ isSep) ∨
      (followsSep ∧ opts.requireLiteralLeadingDot ∧ c = '.'))
  | .anyWithin cs =>
    if (opts.requireLiteralSeparator ∧ isSep) ∨
       (followsSep ∧ opts.requireLiteralLeadingDot ∧ c = '.') then false
    else inCharSpecifiers cs c opts
  | .anyExcept cs =>
    if (opts.requireLiteralSeparator ∧ isSep) ∨
       (followsSep ∧ opts.requireLiteralLeadingDot ∧ c = '.') then false
    else !inCharSpecifiers cs c opts
  | _ => false

/-- Depth bound for the matcher: every recursive call of `matchGo` strictly
decreases this quantity, so any larger fuel gives the fuel-free semantics. -/
def matchMeasure (seqTok : Option PatternToken) (file : List Char)
    (tokens : List PatternToken) : Nat :=
  file.length * (2 * tokens.length + 3) + 2 * tokens.length +
    (if seqTok.isSome then 1 else 0)

/-- The crate's `Pattern::matches_from`, structurally recursive on an explicit
fuel (unreachable at zero from `matchesFrom`, whose fuel exceeds
`matchMeasure`).  With `seqTok = none` this is the token loop: a sequence
token first tries the empty match, then its consuming loop (`seqTok = some
tok`, the `while let Some(c) = file.next()` loop); when that loop exhausts
the input without deciding, control falls through to the remaining tokens
with the input consumed.  A recursive sequence only re-tries the
continuation after a separator. -/
def matchGo (fuel : Nat) (opts : MatchOptions) (seqTok : Option PatternToken)
    (followsSep : Bool) (file : List Char) (tokens : List PatternToken) : MatchResult :=
  match fuel with
  | 0 => .entirePatternDoesntMatch
  | fuel + 1 =>
    match seqTok with
    | none =>
      match tokens with
      | [] => if file.isEmpty then .isMatch else .subPatternDoesntMatch
      | tok :: rest =>
        match tok with
        | .anySequence =>
          (match matchGo fuel opts none followsSep file rest with
           | .subPatternDoesntMatch => matchGo fuel opts (some .anySequence) followsSep file rest
           | m => m)
        | .anyRecursiveSequence =>
          (match matchGo fuel opts none followsSep file rest with
           | .subPatternDoesntMatch =>
             matchGo fuel opts (some .anyRecursiveSequence) followsSep file rest
           | m => m)
        | _ =>
          match file with
          | [] => .entirePatternDoesntMatch
          | c :: cs =>
            if tokenMatchesChar opts followsSep tok c then
              matchGo fuel opts none (c = '/') cs rest
            else .subPatternDoesntMatch
    | some tok =>
      match file with
      | [] => matchGo fuel opts none followsSep [] tokens
      | c :: cs =>
        if followsSep ∧ opts.requireLiteralLeadingDot ∧ c = '.' then .subPatternDoesntMatch
        else
          let fs := c = '/'
          if tok = .anyRecursiveSequence ∧ ¬fs then matchGo fuel opts (some tok) fs cs tokens
          else if tok = .anySequence ∧ opts.requireLiteralSeparator ∧ fs then
            .subPatternDoesntMatch
          else
            match matchGo fuel opts none fs cs tokens with
            | .subPatternDoesntMatch => matchGo fuel opts (some tok) fs cs tokens
            | m => m

/-- `matches_from` at its canonical (always sufficient) fuel. -/
def matchesFrom (opts : MatchOptions) (followsSep : Bool) (file : List Char)
    (tokens : List PatternToken) : MatchResult :=
  matchGo (matchMeasure none file tokens + 1) opts none followsSep file tokens

/-- The crate's `Pattern::matches_with`. -/
def matchesWith (p : Pattern) (s : String) (opts : MatchOptions) : Bool :=
  matchesFrom opts true s.data p.tokens = .isMatch

/-- The crate's `Pattern::matches_path_with` on a UTF-8 (always convertible)
path rendered as a string. -/
def matchesPathWith (p : Pattern) (path : String) (opts : MatchOptions) : Bool :=
  matchesWith p path opts

/-- The crate's `Pattern::matches`, which fixes `MatchOptions::new()`. -/
def patternMatches (p : Pattern) (s : String) : Bool :=
  matchesWith p s matchOptionsNew

/-! ## Paths, ambient process state, and the filesystem model -/

/-- A Rust `Path`, reduced to what the sources inspect on a Unix platform:
whether it is absolute, and its list of normal components. -/
structure RPath where
  absolute : Bool
  components : List String
deriving DecidableEq, Repr

/-- Rust `Path::strip_prefix`: succeeds exactly when the base's components
(and its root, if any) are a prefix, yielding the relative remainder. -/
def stripPrefixPath (p base : RPath) : Option RPath :=
  if p.absolute = base.absolute ∧ base.components.isPrefixOf p.components then
    some ⟨false, p.components.drop base.components.length⟩
  else none

/-- Join relative components with '/' — `Path::to_string_lossy` of a relative
path on Unix (empty for the empty path, as `strip_prefix` of a path from
itself yields). -/
def relString : List String → String
  | [] => ""
  | [x] => x
  | x :: xs => x ++ "/" ++ relString xs

/-- Render an `RPath` as `Path::to_string_lossy` does on Unix. -/
def RPath.render (p : RPath) : String :=
  (if p.absolute then "/" else "") ++ relString p.components

/-- The ambient process state visible to the sources: the current working
directory returned by `env::current_dir` (modelled as always available). -/
structure Env where
  cwd : RPath
deriving DecidableEq, Repr

/-- A filesystem forest as seen by the walker after following symlinks, in
first-child/next-sibling form (keeping the type plainly structural): `nilF`
ends a sibling list, `fileF`/`dirF` give one entry and its following
siblings.  The `content` of a file is its read outcome: `none` models a file
whose open or read fails (deleted mid-walk, permissions), `some bytes` a
readable file. -/
inductive FTree where
  | nilF
  | fileF (name : String) (content : Option (List Nat)) (sib : FTree)
  | dirF (name : String) (children : FTree) (sib : FTree)
deriving DecidableEq, Repr

/-- One entry yielded by `WalkDir`, with its path relative to the walk root
(component list) and its file type. -/
structure WalkEntry where
  rel : List String
  isDir : Bool
  content : Option (List Nat)
deriving DecidableEq, Repr

/-- Depth-first traversal of a forest in `WalkDir` order: each directory is
yielded before its contents, siblings in directory order. -/
def walkForest (pre : List String) : FTree → List WalkEntry
  | .nilF => []
  | .fileF n c rest => ⟨pre ++ [n], false, c⟩ :: walkForest pre rest
  | .dirF n ch rest =>
    ⟨pre ++ [n], true, none⟩ :: (walkForest (pre ++ [n]) ch ++ walkForest pre rest)

/-- All entries of `WalkDir::new(root)` where the root directory has the given
children: the root itself (relative path the empty string) comes first. -/
def walkDirEntries (root : FTree) : List WalkEntry :=
  ⟨[], true, none⟩ :: walkForest [] root

/-! ## `src/lib.rs` -/

/-- A hashed file entry (`FileHash` in both sources): a relative path and the
lowercase hex SHA-256 digest of the file's bytes. -/
structure FileHash where
  path : String
  hash : String
deriving DecidableEq, Repr

/-- The library error type `KushnError` (`WalkDir` and `Serialization`
variants are carried for completeness; the modelled walks do not produce
them). -/
inductive KushnError where
  | io (msg : String)
  | globPattern (e : PatternError)
  | walkDir (msg : String)
  | serialization (msg : String)
deriving DecidableEq, Repr

/-- The modelled payload of the `io::Error` produced when a file cannot be
opened or read. -/
def ioReadMsg : String := "failed to read file"

/-- Rust `Result` collection (`collect::<Result<Vec<_>, _>>()`): evaluate in
order and stop at the first error. -/
def mapExcept (f : α → Except ε β) : List α → Except ε (List β)
  | [] => .ok []
  | a :: l =>
    match f a with
    | .error e => .error e
    | .ok b =>
      match mapExcept f l with
      | .error e => .error e
      | .ok bs => .ok (b :: bs)

/-- Replace every backslash by a forward slash — `str::replace('\\', "/")`
with a single-character pattern. -/
def replaceBackslashL (l : List Char) : List Char :=
  l.map fun c => if c = '\\' then '/' else c

/-- Backslash-to-slash normalization of a rule string. -/
def normalizeRule (r : String) : String := String.mk (replaceBackslashL r.data)

/-- lib.rs `calculate_file_hash`, over the file's read outcome: an unreadable
file is an I/O error, a readable one maps to the lowercase hex SHA-256 of its
bytes.  No partial digest exists: the result is all-or-nothing. -/
def calculateFileHash (content : Option (List Nat)) : Except KushnError String :=
  match content with
  | none => .error (.io ioReadMsg)
  | some bytes => .ok (sha256Hex bytes)

/-- lib.rs `build_file_ignore_patterns`: normalize separators in each raw
rule, wrap it as a tree-wide file rule and compile, stopping at the first
invalid pattern. -/
def buildFileIgnorePatterns (ignore : List String) : Except PatternError (List Pattern) :=
  mapExcept (fun p => patternNew ("**/" ++ normalizeRule p)) ignore

/-- lib.rs `process_file`.  The file's read outcome is passed explicitly; the
current directory comes from the ambient `Env`.  The entry path is the input
with the current directory stripped when it is a prefix (`unwrap_or` keeps
the input path unchanged otherwise), with no further normalization. -/
def processFile (env : Env) (filePath : RPath) (ignore : List String)
    (content : Option (List Nat)) : Except KushnError (Option FileHash) :=
  let baseDir := env.cwd
  let relativePath := (stripPrefixPath filePath baseDir).getD filePath
  match buildFileIgnorePatterns ignore with
  | .error e => .error (.globPattern e)
  | .ok ignorePatterns =>
    if ignorePatterns.any (fun p => matchesPathWith p relativePath.render matchOptionsNew) then
      .ok none
    else
      match calculateFileHash content with
      | .error e => .error e
      | .ok hash => .ok (some ⟨relativePath.render, hash⟩)

/-- The walk-and-filter loop of lib.rs `process_directory` over the entries
of the walk.  A directory matching a directory-form rule is skipped by
`continue` (the walker is not pruned, so its descendants still appear as
entries and are excluded one by one by the same directory-form rules); a
file matching a directory-form or file-form rule is skipped; any other file
is hashed, its stored path being the relative path with backslashes replaced
by slashes. -/
def processEntries (dirPatterns filePatterns : List Pattern) :
    List WalkEntry → Except KushnError (List FileHash)
  | [] => .ok []
  | e :: rest =>
    let rel := relString e.rel
    if e.isDir ∧ dirPatterns.any (fun p => matchesPathWith p rel matchOptionsNew) then
      processEntries dirPatterns filePatterns rest
    else if e.isDir then
      -- a directory is never recorded; the loop moves to the next entry
      processEntries dirPatterns filePatterns rest
    else if dirPatterns.any (fun p => matchesPathWith p rel matchOptionsNew) then
      processEntries dirPatterns filePatterns rest
    else if filePatterns.any (fun p => matchesPathWith p rel matchOptionsNew) then
      processEntries dirPatterns filePatterns rest
    else
      match calculateFileHash e.content with
      | .error e2 => .error e2
      | .ok hash =>
        match processEntries dirPatterns filePatterns rest with
        | .error e2 => .error e2
        | .ok tail => .ok (⟨String.mk (replaceBackslashL rel.data), hash⟩ :: tail)

set_option linter.unusedVariables false in
/-- lib.rs `process_directory` on a root directory given by its children.
Directory-form and file-form patterns are compiled before the walk begins
(each a fail-fast `collect::<Result>`); every walked path is matched relative
to the root (`strip_prefix(directory_path)` always succeeds on the walker's
own entries).  The ambient `Env` is threaded as to every operation, though
this function reads none of it. -/
def processDirectory (env : Env) (root : FTree) (ignore : List String) :
    Except KushnError (List FileHash) :=
  match mapExcept (fun p => patternNew (normalizeRule p ++ "/**")) ignore with
  | .error e => .error (.globPattern e)
  | .ok dirPatterns =>
    match buildFileIgnorePatterns ignore with
    | .error e => .error (.globPattern e)
    | .ok filePatterns => processEntries dirPatterns filePatterns (walkDirEntries root)

/-! ## `src/main.rs`

The binary carries its own copies of the three functions with different error
behavior: `process_file` compiles patterns with `.unwrap()` (a panic on an
invalid rule, modelled as the distinguished `MainError.panicInvalidPattern`
outcome), `process_directory` returns a plain `Vec<FileHash>` and can only
drop failures, and `main` serializes that vector and writes it. -/

/-- Exceptional outcomes of the binary's `process_file`: an I/O error
(returned as `Err`) or a panic from `.unwrap()` on an invalid pattern. -/
inductive MainError where
  | io (msg : String)
  | panicInvalidPattern (e : PatternError)
deriving DecidableEq, Repr

/-- main.rs `process_file`: unlike the library version the strip of the
current directory is mandatory (`map_err` turns a failed strip into an I/O
error) and the raw rules are wrapped with no backslash normalization. -/
def mainProcessFile (env : Env) (filePath : RPath) (ignore : List String)
    (content : Option (List Nat)) : Except MainError (Option FileHash) :=
  match stripPrefixPath filePath env.cwd with
  | none => .error (.io "strip_prefix failed")
  | some relativePath =>
    match mapExcept (fun p => patternNew ("**/" ++ p)) ignore with
    | .error e => .error (.panicInvalidPattern e)
    | .ok ignorePatterns =>
      if ignorePatterns.any (fun p => matchesPathWith p relativePath.render matchOptionsNew) then
        .ok none
      else
        match content with
        | none => .error (.io ioReadMsg)
        | some bytes => .ok (some ⟨relativePath.render, sha256Hex bytes⟩)

/-- The short-circuiting `ignore.iter().any(...)` of main.rs
`process_directory`, which compiles each directory-form pattern on the fly
with `.unwrap()`: a match stops the iteration, and an invalid rule reached
before any match panics. -/
def anyDirPatternUnwrap (ignore : List String) (rel : String) : Except PatternError Bool :=
  match ignore with
  | [] => .ok false
  | p :: rest =>
    match patternNew (normalizeRule p ++ "/**") with
    | .error e => .error e
    | .ok pat =>
      if patternMatches pat rel then .ok true
      else anyDirPatternUnwrap rest rel

/-- The entry loop of main.rs `process_directory`: a panic (invalid pattern)
propagates, but everything else is swallowed — an erroring walk entry is only
logged, and a `process_file` error (including a failed digest) drops the
entry with no trace in the result. -/
def mainProcessEntries (env : Env) (rootAbs : RPath) (ignore : List String) :
    List WalkEntry → Except PatternError (List FileHash)
  | [] => .ok []
  | e :: rest =>
    let rel := relString e.rel
    match anyDirPatternUnwrap ignore rel with
    | .error e2 => .error e2
    | .ok skipAsDir =>
      if e.isDir ∧ skipAsDir then mainProcessEntries env rootAbs ignore rest
      else if (¬e.isDir) ∧ skipAsDir then mainProcessEntries env rootAbs ignore rest
      else
        match mainProcessFile env ⟨rootAbs.absolute, rootAbs.components ++ e.rel⟩ ignore
            e.content with
        | .error (.panicInvalidPattern e2) => .error e2
        | .error (.io _) => mainProcessEntries env rootAbs ignore rest
        | .ok none => mainProcessEntries env rootAbs ignore rest
        | .ok (some fh) =>
          match mainProcessEntries env rootAbs ignore rest with
          | .error e2 => .error e2
          | .ok tail => .ok (fh :: tail)

/-- main.rs `process_directory`: walk the root and collect what survives.
Directory entries hit `process_file` too (`process_file` is called on every
non-skipped entry; a directory's "read" fails and is silently dropped,
matching the source where hashing a directory path errors and the `if let
Ok` discards it).  The return type (`Vec<FileHash>`) cannot carry an error;
only a panic escapes. -/
def mainProcessDirectory (env : Env) (rootAbs : RPath) (root : FTree)
    (ignore : List String) : Except PatternError (List FileHash) :=
  mainProcessEntries env rootAbs ignore (walkDirEntries root)

/-- The entry list serialized and written by main.rs `main`: the JSON array
written to the output file is exactly `serde_json::to_string_pretty` of this
list, its elements in order; nothing is appended after serialization.  The
root passed to the traversal is the current directory. -/
def mainWrittenEntries (env : Env) (root : FTree) (ignore : List String) :
    Except PatternError (List FileHash) :=
  mainProcessDirectory env env.cwd root ignore

/-- The output filename used by main.rs when no `--name` override is given. -/
def defaultOutputName : String := "kushn_result.json"

/-! ## Auxiliary predicates and concrete fixtures -/

/-- A well-formed file or directory name: nonempty and free of separators
('/' cannot occur in a Unix filename; '\\' is excluded so that path strings
are unambiguous under the sources' backslash normalization). -/
def wfName (s : String) : Bool :=
  !s.data.isEmpty && s.data.all fun c => !(c == '/' || c == '\\')

/-- Every name in the forest is well-formed. -/
def wfForest : FTree → Bool
  | .nilF => true
  | .fileF n _ rest => wfName n && wfForest rest
  | .dirF n ch rest => wfName n && wfForest ch && wfForest rest

/-- A rule string with no glob metacharacter: it names one literal path. -/
def literalStr (s : String) : Bool :=
  s.data.all fun c => !(c == '*' || c == '?' || c == '[')

/-- The lowercase hexadecimal alphabet. -/
def hexAlphabet : String := "0123456789abcdef"

/-- A fixed ambient state for concrete runs: the working directory `/root`. -/
def envDemo : Env := ⟨⟨true, ["root"]⟩⟩

/-- The bytes of "hello world", the file content of the spec's digest
scenario. -/
def helloWorldBytes : List Nat := strBytes "hello world"

/-- The scenario tree of the tree-wide file-rule claim: a matching log file
at the root, another inside a nested directory, one unrelated file. -/
def logTree : FTree :=
  .fileF "app.log" (some (strBytes "a"))
    (.dirF "nested" (.fileF "debug.log" (some (strBytes "d")) .nilF)
      (.fileF "keep.txt" (some (strBytes "keep")) .nilF))

/-- One readable file; the manifest it produces has that file's entry last. -/
def oneFileTree : FTree := .fileF "a.txt" (some (strBytes "x")) .nilF

/-- One readable file next to one whose read fails. -/
def badReadTree : FTree :=
  .fileF "good.txt" (some (strBytes "g")) (.fileF "bad.txt" none .nilF)

/-! ## Digest properties -/

/-- Each 32-bit word contributes exactly four digest bytes. -/
theorem length_sha256Bytes (msg : List Nat) : (sha256Bytes msg).length = 32 := by
  simp [sha256Bytes, wordToBytes]

/-- Every produced hex digit is drawn from the lowercase alphabet. -/
theorem hexDigitChar_mem (n : Nat) : hexDigitChar n ∈ hexAlphabet.data := by
  unfold hexDigitChar
  split <;> decide

/-- Both characters printed for a byte are lowercase hex digits. -/
theorem byteToHex_mem {c : Char} {b : Nat} (h : c ∈ byteToHex b) : c ∈ hexAlphabet.data := by
  simp only [byteToHex, List.mem_cons, List.not_mem_nil, or_false] at h
  rcases h with h | h <;> (subst h; exact hexDigitChar_mem _)

/-- A byte always prints as exactly two characters. -/
theorem length_byteToHex (b : Nat) : (byteToHex b).length = 2 := rfl

/-- Hex expansion doubles a byte list's length. -/
theorem length_flatMap_byteToHex (l : List Nat) : (l.flatMap byteToHex).length = 2 * l.length := by
  induction l with
  | nil => simp
  | cons a t ih => simp only [List.flatMap_cons, List.length_append, ih, length_byteToHex,
      List.length_cons]; omega

/-- The digest string of any byte content is 64 lowercase hex characters. -/
theorem sha256Hex_shape (msg : List Nat) :
    (sha256Hex msg).length = 64 ∧ ∀ c ∈ (sha256Hex msg).data, c ∈ hexAlphabet.data := by
  constructor
  · show (String.mk ((sha256Bytes msg).flatMap byteToHex)).length = 64
    have h2 : ((sha256Bytes msg).flatMap byteToHex).length = 64 := by
      rw [length_flatMap_byteToHex, length_sha256Bytes]
    simpa [String.length] using h2
  · intro c hc
    have hc2 : c ∈ (sha256Bytes msg).flatMap byteToHex := hc
    rw [List.mem_flatMap] at hc2
    obtain ⟨b, _, hb⟩ := hc2
    exact byteToHex_mem hb

/-- C9: for every file `calculate_file_hash` succeeds on, the digest string
has exactly 64 characters, all lowercase hexadecimal digits (leading zero
bytes print as "0" pairs since every byte prints as two digits). -/
theorem digest_is_64_lowercase_hex (content : Option (List Nat)) (s : String)
    (h : calculateFileHash content = .ok s) :
    s.length = 64 ∧ ∀ c ∈ s.data, c ∈ hexAlphabet.data := by
  cases content with
  | none => simp [calculateFileHash] at h
  | some bytes =>
    have hs : s = sha256Hex bytes := by
      simpa [calculateFileHash] using h.symm
    subst hs
    exact sha256Hex_shape bytes

/-- Witness: the digest of the one-byte file "x" has the claimed shape. -/
theorem digest_is_64_lowercase_hex_witness :
    ("2d711642b726b04401627ca9fbac32f5c8530fb1903cc4db02258717921a4881".length = 64 ∧
      ∀ c ∈ "2d711642b726b04401627ca9fbac32f5c8530fb1903cc4db02258717921a4881".data,
        c ∈ hexAlphabet.data) :=
  digest_is_64_lowercase_hex (some (strBytes "x"))
    "2d711642b726b04401627ca9fbac32f5c8530fb1903cc4db02258717921a4881" (by rfl)

/-- C2 counterexample: `calculate_file_hash` on the exact bytes
"hello world" yields the true SHA-256 digest, which differs from the
63-character string printed in the spec. -/
theorem helloWorld_digest_differs_from_spec :
    calculateFileHash (some helloWorldBytes) =
      .ok "b94d27b9934d3e08a52e52d7da7dabfac484efe37a5380ee9088f7ace2efcde9" ∧
    "b94d27b9934d3e08a52e52d7da7dabfac484efe37a5380ee9088f7ace2efcde9" ≠
      "b94d27b9934d3e08a52e52d7da7dacefbc634c9d49cc35b0cd03dc26c6c6dbd" := by
  exact ⟨by rfl, by decide⟩

/-- C2 amended: the digest of the bytes "hello world" equals the true
SHA-256 hex string (64 characters). -/
theorem helloWorld_digest_value :
    calculateFileHash (some helloWorldBytes) =
      .ok "b94d27b9934d3e08a52e52d7da7dabfac484efe37a5380ee9088f7ace2efcde9" := by
  rfl

/-- C7: with ignore rule "*.log", both the root-level log file and the one in
a nested directory are excluded; only the unrelated file remains, with its
content digest. -/
theorem file_rule_applies_tree_wide :
    (processDirectory envDemo logTree ["*.log"]).map (List.map FileHash.path) =
      .ok ["keep.txt"] := by
  rfl

/-- C8: the entry list of lib.rs `process_directory` is a function of the
root's contents and the ignore list alone — two runs with arbitrary, possibly
different ambient working directories produce identical results. -/
theorem processDirectory_ignores_ambient_state (env1 env2 : Env) (root : FTree)
    (ignore : List String) :
    processDirectory env1 root ignore = processDirectory env2 root ignore := rfl

/-- C1 counterexample: with one file "a.txt" the written array's final
element is that file's entry, not a self-referential entry for the output
file. -/
theorem written_manifest_last_not_self :
    (mainWrittenEntries envDemo oneFileTree []).map (fun l => (l.map FileHash.path).getLast?) =
      .ok (some "a.txt") ∧ "a.txt" ≠ defaultOutputName := by
  exact ⟨by rfl, by decide⟩

/-- C4 counterexample: main.rs `process_directory` meets a file whose digest
computation fails ("bad.txt"), yet returns a partial entry list with the file
silently omitted — its `Vec` return type cannot carry the error. -/
theorem main_swallows_digest_failure :
    mainWrittenEntries envDemo badReadTree [] =
      .ok [⟨"good.txt", "cd0aa9856147b6c5b4ff2b7dfee5da20aa38253099ef1b4a64aced233c9afe29"⟩] := by
  rfl

/-- C6 counterexample: lib.rs `process_file` on an absolute path outside the
current directory keeps the path verbatim (`unwrap_or`), producing an entry
whose path is absolute. -/
theorem processFile_can_emit_absolute_path :
    processFile ⟨⟨true, ["home", "user"]⟩⟩ ⟨true, ["etc", "passwd"]⟩ [] (some (strBytes "x")) =
      .ok (some ⟨"/etc/passwd",
        "2d711642b726b04401627ca9fbac32f5c8530fb1903cc4db02258717921a4881"⟩) ∧
    "/etc/passwd".data.head? = some '/' := by
  exact ⟨by rfl, by decide⟩

/-! ## Ignored files are never read (lib.rs `process_file`) -/

/-- C10: when some compiled file-form pattern matches the input path relative
to the current directory, `process_file` answers `Ok(None)` before the file
is ever opened: the result is the same for every read outcome, including a
nonexistent file. -/
theorem processFile_ignored_never_reads (env : Env) (filePath : RPath) (ignore : List String)
    (pats : List Pattern) (hc : buildFileIgnorePatterns ignore = .ok pats)
    (hm : pats.any (fun p =>
      matchesPathWith p ((stripPrefixPath filePath env.cwd).getD filePath).render
        matchOptionsNew) = true)
    (content : Option (List Nat)) :
    processFile env filePath ignore content = .ok none := by
  simp only [processFile, hc, hm, if_true]

/-- The compiled form of the file rule "ignored.txt". -/
def ignoredTxtPattern : Pattern := ⟨.anyRecursiveSequence :: ("ignored.txt".data.map .char)⟩

/-- Witness: the rule list ["ignored.txt"] compiles, matches the relative
path "ignored.txt", and the unreadable (nonexistent) file is still answered
with `Ok(None)`. -/
theorem processFile_ignored_never_reads_witness :
    buildFileIgnorePatterns ["ignored.txt"] = .ok [ignoredTxtPattern] ∧
    processFile envDemo ⟨false, ["ignored.txt"]⟩ ["ignored.txt"] none = .ok none :=
  ⟨by rfl,
   processFile_ignored_never_reads envDemo ⟨false, ["ignored.txt"]⟩ ["ignored.txt"]
     [ignoredTxtPattern] (by rfl) (by rfl) none⟩

/-! ## Membership in the traversal's results (lib.rs `process_directory`) -/

/-- Every entry of a successful `process_directory` run comes from a file
entry of the walk that no compiled rule matched, its stored path being the
slash-normalized relative path and its hash the digest of the file's bytes. -/
theorem processEntries_mem {dp fp : List Pattern} :
    ∀ {entries : List WalkEntry} {res : List FileHash},
      processEntries dp fp entries = .ok res → ∀ {fh : FileHash}, fh ∈ res →
      ∃ e, e ∈ entries ∧ e.isDir = false ∧
        dp.any (fun p => matchesPathWith p (relString e.rel) matchOptionsNew) = false ∧
        fp.any (fun p => matchesPathWith p (relString e.rel) matchOptionsNew) = false ∧
        fh.path = String.mk (replaceBackslashL (relString e.rel).data) ∧
        ∃ b, e.content = some b ∧ fh.hash = sha256Hex b := by
  intro entries
  induction entries with
  | nil =>
    intro res h fh hm
    simp only [processEntries] at h
    cases h
    cases hm
  | cons a rest ih =>
    intro res h fh hm
    simp only [processEntries] at h
    split at h
    · obtain ⟨e, he, hrest⟩ := ih h hm
      exact ⟨e, List.mem_cons_of_mem _ he, hrest⟩
    · next hc1 =>
      split at h
      · obtain ⟨e, he, hrest⟩ := ih h hm
        exact ⟨e, List.mem_cons_of_mem _ he, hrest⟩
      · next hc2 =>
        split at h
        · obtain ⟨e, he, hrest⟩ := ih h hm
          exact ⟨e, List.mem_cons_of_mem _ he, hrest⟩
        · next hc3 =>
          split at h
          · obtain ⟨e, he, hrest⟩ := ih h hm
            exact ⟨e, List.mem_cons_of_mem _ he, hrest⟩
          · next hc4 =>
            cases hcc : calculateFileHash a.content with
            | error e2 => rw [hcc] at h; cases h
            | ok hsh =>
              rw [hcc] at h
              cases hpp : processEntries dp fp rest with
              | error e2 => rw [hpp] at h; cases h
              | ok tail =>
                rw [hpp] at h
                injection h with h
                subst h
                rcases List.mem_cons.mp hm with hfh | hfh
                · subst hfh
                  refine ⟨a, List.mem_cons_self _ _, ?_, ?_, ?_, rfl, ?_⟩
                  · revert hc2; cases a.isDir <;> simp
                  · revert hc3
                    cases hd : dp.any (fun p => matchesPathWith p (relString a.rel)
                      matchOptionsNew) <;> simp
                  · revert hc4
                    cases hd : fp.any (fun p => matchesPathWith p (relString a.rel)
                      matchOptionsNew) <;> simp
                  · cases hconts : a.content with
                    | none => rw [hconts] at hcc; simp [calculateFileHash] at hcc
                    | some bytes =>
                      rw [hconts] at hcc
                      simp only [calculateFileHash] at hcc
                      injection hcc with hcc
                      exact ⟨bytes, rfl, hcc.symm⟩
                · obtain ⟨e, he, hrest⟩ := ih hpp hfh
                  exact ⟨e, List.mem_cons_of_mem _ he, hrest⟩

/-- Splitting a successful `process_directory` run into its compiled pattern
lists and the walk-and-filter loop. -/
theorem processDirectory_ok_elim {env : Env} {root : FTree} {ignore : List String}
    {res : List FileHash} (h : processDirectory env root ignore = .ok res) :
    ∃ dp fp, mapExcept (fun p => patternNew (normalizeRule p ++ "/**")) ignore = .ok dp ∧
      buildFileIgnorePatterns ignore = .ok fp ∧
      processEntries dp fp (walkDirEntries root) = .ok res := by
  rw [processDirectory] at h
  cases hdp : mapExcept (fun p => patternNew (normalizeRule p ++ "/**")) ignore with
  | error e => rw [hdp] at h; cases h
  | ok dp =>
    rw [hdp] at h
    cases hfp : buildFileIgnorePatterns ignore with
    | error e => rw [hfp] at h; cases h
    | ok fp => rw [hfp] at h; exact ⟨dp, fp, rfl, rfl, h⟩

/-! ## Well-formed walks -/

/-- Unpacking a well-formed name: nonempty, and free of both separators. -/
theorem wfName_spec {s : String} (h : wfName s = true) :
    s.data ≠ [] ∧ ∀ c ∈ s.data, c ≠ '/' ∧ c ≠ '\\' := by
  simp only [wfName, Bool.and_eq_true, Bool.not_eq_true', List.all_eq_true] at h
  refine ⟨by simpa using h.1, fun c hc => ?_⟩
  have := h.2 c hc
  simp only [Bool.or_eq_false_iff, beq_eq_false_iff_ne] at this
  exact this

/-- Every entry walked out of a well-formed forest extends the prefix by a
nonempty list of well-formed names. -/
theorem walkForest_wf {t : FTree} :
    ∀ {pre : List String}, wfForest t = true → ∀ {e : WalkEntry}, e ∈ walkForest pre t →
      ∃ l, e.rel = pre ++ l ∧ l ≠ [] ∧ ∀ n ∈ l, wfName n = true := by
  induction t with
  | nilF => intro pre hw e he; simp [walkForest] at he
  | fileF n c rest ih =>
    intro pre hw e he
    simp only [wfForest, Bool.and_eq_true] at hw
    rcases List.mem_cons.mp he with he1 | he1
    · subst he1; exact ⟨[n], rfl, by simp, by simpa using hw.1⟩
    · exact ih hw.2 he1
  | dirF n ch rest ihCh ihRest =>
    intro pre hw e he
    simp only [wfForest, Bool.and_eq_true] at hw
    rcases List.mem_cons.mp he with he1 | he1
    · subst he1; exact ⟨[n], rfl, by simp, by simpa using hw.1.1⟩
    · rcases List.mem_append.mp he1 with he2 | he2
      · obtain ⟨l, hl, hne, hwf⟩ := ihCh hw.1.2 he2
        refine ⟨n :: l, by rw [hl]; simp, by simp, fun m hm => ?_⟩
        rcases List.mem_cons.mp hm with h2 | h2
        · subst h2; simpa using hw.1.1
        · exact hwf m h2
      · exact ihRest hw.2 he2

/-- Replacement only produces forward slashes in place of backslashes. -/
theorem replaceBackslashL_no_backslash {c : Char} {xs : List Char}
    (h : c ∈ replaceBackslashL xs) : c ≠ '\\' := by
  simp only [replaceBackslashL, List.mem_map] at h
  obtain ⟨d, _, hd⟩ := h
  subst hd
  split <;> simp_all

/-- The first character of a joined relative path is the first character of
its first component. -/
theorem relString_head {n : String} (l : List String) (hn : n.data ≠ []) :
    (relString (n :: l)).data.head? = n.data.head? := by
  cases l with
  | nil => rfl
  | cons x xs =>
    show ((n ++ "/" ++ relString (x :: xs))).data.head? = n.data.head?
    rw [String.data_append, String.data_append]
    cases hd : n.data with
    | nil => exact absurd hd hn
    | cons a t => simp

/-! ## C6 (amended): entry paths of `process_directory` -/

/-- C6 amended, the `process_directory` half: over a well-formed tree every
produced entry path is relative (it does not begin with '/') and contains no
backslash — its only separator is the forward slash. -/
theorem processDirectory_paths_relative_slash_only
    (env : Env) (root : FTree) (ignore : List String) (res : List FileHash)
    (hw : wfForest root = true)
    (h : processDirectory env root ignore = .ok res)
    (fh : FileHash) (hm : fh ∈ res) :
    fh.path.data.head? ≠ some '/' ∧ ∀ c ∈ fh.path.data, c ≠ '\\' := by
  obtain ⟨dp, fp, _, _, hpe⟩ := processDirectory_ok_elim h
  obtain ⟨e, he, hdir, _, _, hpath, _⟩ := processEntries_mem hpe hm
  have hdata : fh.path.data = replaceBackslashL (relString e.rel).data := by
    rw [hpath]
  rcases List.mem_cons.mp he with he1 | he1
  · rw [he1] at hdir; cases hdir
  · obtain ⟨l, hl, hne, hwf⟩ := walkForest_wf hw he1
    simp only [List.nil_append] at hl
    cases l with
    | nil => exact absurd rfl hne
    | cons n ltail =>
      obtain ⟨hn1, hn2⟩ := wfName_spec (hwf n (List.mem_cons_self _ _))
      constructor
      · rw [hdata, hl]
        show (replaceBackslashL (relString (n :: ltail)).data).head? ≠ some '/'
        have hhd : (relString (n :: ltail)).data.head? = n.data.head? := relString_head _ hn1
        rw [replaceBackslashL, List.head?_map, hhd]
        cases hd : n.data with
        | nil => exact absurd hd hn1
        | cons a t =>
          have ha := hn2 a (by rw [hd]; exact List.mem_cons_self _ _)
          simp only [List.head?_cons, Option.map_some]
          intro hcontra
          injection hcontra with hcontra
          simp only [if_neg ha.2] at hcontra
          exact ha.1 hcontra
      · intro c hc
        rw [hdata] at hc
        exact replaceBackslashL_no_backslash hc

/-- The digest of the one-byte file "x". -/
def hashOfX : String := "2d711642b726b04401627ca9fbac32f5c8530fb1903cc4db02258717921a4881"

/-- Witness: on the one-file tree the produced path "a.txt" is relative and
slash-only. -/
theorem processDirectory_paths_relative_slash_only_witness :
    wfForest oneFileTree = true ∧
    processDirectory envDemo oneFileTree [] = .ok [⟨"a.txt", hashOfX⟩] ∧
    ("a.txt".data.head? ≠ some '/' ∧ ∀ c ∈ "a.txt".data, c ≠ '\\') :=
  ⟨by rfl, by rfl,
   processDirectory_paths_relative_slash_only envDemo oneFileTree [] [⟨"a.txt", hashOfX⟩]
     (by rfl) (by rfl) ⟨"a.txt", hashOfX⟩ (List.mem_cons_self _ _)⟩

/-! ## C4 (amended): the library propagates digest failures -/

/-- A failed digest only ever carries the I/O read error. -/
theorem calculateFileHash_error {content : Option (List Nat)} {er : KushnError}
    (h : calculateFileHash content = .error er) : er = .io ioReadMsg := by
  cases content with
  | none => simpa [calculateFileHash] using h.symm
  | some b => simp [calculateFileHash] at h

/-- If some surviving (unmatched, regular-file) walk entry is unreadable, the
walk-and-filter loop returns the I/O error — never a partial list. -/
theorem processEntries_error_of_unreadable {dp fp : List Pattern} :
    ∀ {entries : List WalkEntry} (e : WalkEntry), e ∈ entries → e.isDir = false →
      e.content = none →
      dp.any (fun p => matchesPathWith p (relString e.rel) matchOptionsNew) = false →
      fp.any (fun p => matchesPathWith p (relString e.rel) matchOptionsNew) = false →
      processEntries dp fp entries = .error (.io ioReadMsg) := by
  intro entries
  induction entries with
  | nil => intro e he; cases he
  | cons a rest ih =>
    intro e he hdir hnone h1 h2
    rcases List.mem_cons.mp he with he1 | he1
    · subst he1
      simp only [processEntries]
      rw [if_neg, if_neg, if_neg, if_neg]
      · rw [hnone]; rfl
      · rw [h2]; simp
      · rw [h1]; simp
      · rw [hdir]; simp
      · rw [hdir]; simp
    · have htail := ih e he1 hdir hnone h1 h2
      simp only [processEntries]
      split
      · exact htail
      · split
        · exact htail
        · split
          · exact htail
          · split
            · exact htail
            · cases hca : calculateFileHash a.content with
              | error e2 => rw [calculateFileHash_error hca]
              | ok hsh => rw [htail]

/-- C4 amended, the lib.rs half: when a surviving file of the walk cannot be
read, `process_directory` returns the I/O error to its caller; the `Except`
result carries no partial entry list, so the failure is never silently turned
into a manifest that omits the file. -/
theorem processDirectory_propagates_digest_failure
    (env : Env) (root : FTree) (ignore : List String) (dp fp : List Pattern)
    (hdp : mapExcept (fun p => patternNew (normalizeRule p ++ "/**")) ignore = .ok dp)
    (hfp : buildFileIgnorePatterns ignore = .ok fp)
    (e : WalkEntry) (he : e ∈ walkDirEntries root)
    (hdir : e.isDir = false) (hnone : e.content = none)
    (h1 : dp.any (fun p => matchesPathWith p (relString e.rel) matchOptionsNew) = false)
    (h2 : fp.any (fun p => matchesPathWith p (relString e.rel) matchOptionsNew) = false) :
    processDirectory env root ignore = .error (.io ioReadMsg) := by
  simp only [processDirectory, hdp, hfp]
  exact processEntries_error_of_unreadable e he hdir hnone h1 h2

/-- Witness: with "bad.txt" unreadable, the library's run is the I/O error,
not a partial list. -/
theorem processDirectory_propagates_digest_failure_witness :
    (⟨["bad.txt"], false, none⟩ : WalkEntry) ∈ walkDirEntries badReadTree ∧
    processDirectory envDemo badReadTree [] = .error (.io ioReadMsg) :=
  ⟨by decide,
   processDirectory_propagates_digest_failure envDemo badReadTree [] [] []
     (by rfl) (by rfl) ⟨["bad.txt"], false, none⟩ (by decide) rfl rfl rfl rfl⟩

/-! ## C1 (amended): the written manifest is exactly the traversal's output -/

/-- Rendering a relative `RPath` is joining its components. -/
theorem render_rel (comps : List String) : RPath.render ⟨false, comps⟩ = relString comps := by
  apply String.ext
  simp [RPath.render, String.data_append]

/-- Stripping the current directory from one of its own walk paths yields the
relative component list. -/
theorem stripPrefix_cwd_append (cwd : RPath) (rel : List String) :
    stripPrefixPath ⟨cwd.absolute, cwd.components ++ rel⟩ cwd = some ⟨false, rel⟩ := by
  simp [stripPrefixPath, List.isPrefixOf_iff_prefix, List.prefix_append, List.drop_left]

/-- A successful hash entry out of main.rs `process_file` stores the rendered
stripped path. -/
theorem mainProcessFile_ok_path {env : Env} {fp : RPath} {ignore : List String}
    {content : Option (List Nat)} {fh2 : FileHash}
    (h : mainProcessFile env fp ignore content = .ok (some fh2)) :
    ∃ rp, stripPrefixPath fp env.cwd = some rp ∧ fh2.path = rp.render := by
  cases hs : stripPrefixPath fp env.cwd with
  | none =>
    simp only [mainProcessFile, hs] at h
    exact Except.noConfusion h
  | some rp =>
    cases hc : mapExcept (fun p => patternNew ("**/" ++ p)) ignore with
    | error e =>
      simp only [mainProcessFile, hs, hc] at h
      exact Except.noConfusion h
    | ok pats =>
      simp only [mainProcessFile, hs, hc] at h
      split at h
      · simp at h
      · cases content with
        | none => simp at h
        | some bytes =>
          refine ⟨rp, rfl, ?_⟩
          simp only [Except.ok.injEq, Option.some.injEq] at h
          rw [← h]

/-- Every entry of a successful main.rs walk names the relative path of some
walked entry (the walk root being the current directory, as `main` passes
it). -/
theorem mainWrittenEntries_mem {env : Env} {root : FTree} {ignore : List String}
    {res : List FileHash} (h : mainWrittenEntries env root ignore = .ok res)
    {fh : FileHash} (hm : fh ∈ res) :
    ∃ e, e ∈ walkDirEntries root ∧ fh.path = relString e.rel := by
  have h2 : mainProcessEntries env env.cwd ignore (walkDirEntries root) = .ok res := h
  clear h
  suffices hgen : ∀ (entries : List WalkEntry) (res2 : List FileHash),
      mainProcessEntries env env.cwd ignore entries = .ok res2 → ∀ fh2 ∈ res2,
      ∃ e, e ∈ entries ∧ fh2.path = relString e.rel by
    exact hgen _ _ h2 fh hm
  intro entries
  induction entries with
  | nil =>
    intro res2 hres fh2 hm2
    cases hres
    cases hm2
  | cons a rest ih =>
    intro res2 hres fh2 hm2
    simp only [mainProcessEntries] at hres
    cases had : anyDirPatternUnwrap ignore (relString a.rel) with
    | error e2 =>
      simp only [had] at hres
      exact Except.noConfusion hres
    | ok skipAsDir =>
      simp only [had] at hres
      by_cases hc1 : (a.isDir = true ∧ skipAsDir = true)
      · rw [if_pos hc1] at hres
        obtain ⟨e, he, hp⟩ := ih _ hres fh2 hm2
        exact ⟨e, List.mem_cons_of_mem _ he, hp⟩
      · rw [if_neg hc1] at hres
        by_cases hc2 : (¬(a.isDir = true) ∧ skipAsDir = true)
        · rw [if_pos hc2] at hres
          obtain ⟨e, he, hp⟩ := ih _ hres fh2 hm2
          exact ⟨e, List.mem_cons_of_mem _ he, hp⟩
        · rw [if_neg hc2] at hres
          cases hmf : mainProcessFile env ⟨env.cwd.absolute, env.cwd.components ++ a.rel⟩
              ignore a.content with
          | error er =>
            cases er with
            | io msg =>
              simp only [hmf] at hres
              obtain ⟨e, he, hp⟩ := ih _ hres fh2 hm2
              exact ⟨e, List.mem_cons_of_mem _ he, hp⟩
            | panicInvalidPattern e2 =>
              simp only [hmf] at hres
              exact Except.noConfusion hres
          | ok o =>
            cases o with
            | none =>
              simp only [hmf] at hres
              obtain ⟨e, he, hp⟩ := ih _ hres fh2 hm2
              exact ⟨e, List.mem_cons_of_mem _ he, hp⟩
            | some fhNew =>
              simp only [hmf] at hres
              cases hpp : mainProcessEntries env env.cwd ignore rest with
              | error e2 =>
                simp only [hpp] at hres
                exact Except.noConfusion hres
              | ok tail =>
                simp only [hpp] at hres
                injection hres with hres
                subst hres
                rcases List.mem_cons.mp hm2 with hfh | hfh
                · subst hfh
                  obtain ⟨rp, hrp, hpath⟩ := mainProcessFile_ok_path hmf
                  rw [stripPrefix_cwd_append] at hrp
                  injection hrp with hrp
                  refine ⟨a, List.mem_cons_self _ _, ?_⟩
                  rw [hpath, ← hrp, render_rel]
                · obtain ⟨e, he, hp⟩ := ih _ hpp fh2 hfh
                  exact ⟨e, List.mem_cons_of_mem _ he, hp⟩

/-- C1 amended: main.rs writes exactly the traversal's entries; if no walked
entry's relative path equals the output filename, no element of the written
array has the output filename as its path — there is no appended
self-referential entry. -/
theorem main_manifest_no_self_entry (env : Env) (root : FTree) (ignore : List String)
    (res : List FileHash)
    (hn : ∀ e ∈ walkDirEntries root, relString e.rel ≠ defaultOutputName)
    (h : mainWrittenEntries env root ignore = .ok res) :
    ∀ fh ∈ res, fh.path ≠ defaultOutputName := by
  intro fh hm
  obtain ⟨e, he, hp⟩ := mainWrittenEntries_mem h hm
  rw [hp]
  exact hn e he

/-- Witness: on the one-file tree nothing is named like the output file, and
no written entry carries the output filename. -/
theorem main_manifest_no_self_entry_witness :
    (∀ e ∈ walkDirEntries oneFileTree, relString e.rel ≠ defaultOutputName) ∧
    (∀ fh ∈ ([⟨"a.txt", hashOfX⟩] : List FileHash), fh.path ≠ defaultOutputName) :=
  ⟨by decide,
   main_manifest_no_self_entry envDemo oneFileTree [] [⟨"a.txt", hashOfX⟩]
     (by decide) (by rfl)⟩

/-! ## C3: a literal directory rule excludes its whole subtree -/

/-- A successful `collect::<Result>` carries one output per input. -/
theorem mapExcept_mem {f : α → Except ε β} :
    ∀ {l : List α} {bs : List β}, mapExcept f l = .ok bs → ∀ {a : α}, a ∈ l →
      ∃ b ∈ bs, f a = .ok b := by
  intro l
  induction l with
  | nil => intro bs h a ha; cases ha
  | cons x xs ih =>
    intro bs h a ha
    simp only [mapExcept] at h
    cases hx : f x with
    | error e => rw [hx] at h; exact Except.noConfusion h
    | ok b =>
      rw [hx] at h
      cases hxs : mapExcept f xs with
      | error e => rw [hxs] at h; exact Except.noConfusion h
      | ok bs2 =>
        rw [hxs] at h
        injection h with h
        subst h
        rcases List.mem_cons.mp ha with ha1 | ha1
        · subst ha1; exact ⟨b, List.mem_cons_self _ _, hx⟩
        · obtain ⟨b2, hb2, hfb2⟩ := ih hxs ha1
          exact ⟨b2, List.mem_cons_of_mem _ hb2, hfb2⟩

/-- Parsing a literal body followed by "/**": each character becomes a `char`
token, the separator stays literal, and the trailing recursive wildcard is
accepted (it is preceded by '/' and ends the pattern). -/
theorem parseGo_literal {cs : List Char}
    (hlit : ∀ c ∈ cs, c ≠ '*' ∧ c ≠ '?' ∧ c ≠ '[') :
    ∀ (fuel i : Nat) (prev : Option Char) (acc : List PatternToken),
      cs.length + 3 < fuel →
      parseGo fuel i prev (cs ++ ['/', '*', '*']) acc =
        .ok (acc.reverse ++ cs.map .char ++ [.char '/', .anyRecursiveSequence]) := by
  induction cs with
  | nil =>
    intro fuel i prev acc hf
    obtain ⟨g, rfl⟩ : ∃ g, fuel = g + 2 := ⟨fuel - 2, by omega⟩
    simp [parseGo, countStars, pushRecursive]
  | cons c cs ih =>
    intro fuel i prev acc hf
    obtain ⟨f, rfl⟩ : ∃ f, fuel = f + 1 := ⟨fuel - 1, by omega⟩
    have hc := hlit c (List.mem_cons_self _ _)
    simp only [List.cons_append, parseGo]
    rw [if_neg hc.2.1, if_neg hc.1, if_neg hc.2.2]
    rw [ih (fun d hd => hlit d (List.mem_cons_of_mem _ hd)) f (i + 1) (some c)
      (.char c :: acc) (by simp only [List.length_cons] at hf; omega)]
    simp

/-- `Pattern::new` on a literal directory rule wrapped as `rule + "/**"`. -/
theorem patternNew_literal {s : String} (hlit : literalStr s = true) :
    patternNew (s ++ "/**") =
      .ok ⟨s.data.map .char ++ [.char '/', .anyRecursiveSequence]⟩ := by
  have hl : ∀ c ∈ s.data, c ≠ '*' ∧ c ≠ '?' ∧ c ≠ '[' := by
    simp only [literalStr, List.all_eq_true] at hlit
    intro c hc
    have := hlit c hc
    simp only [Bool.not_eq_true', Bool.or_eq_false_iff, beq_eq_false_iff_ne] at this
    exact ⟨this.1.1, this.1.2, this.2⟩
  have hdata : (s ++ "/**").data = s.data ++ ['/', '*', '*'] := by
    rw [String.data_append]
  unfold patternNew parseFrom
  rw [hdata, parseGo_literal hl _ 0 none [] (by simp [List.length_append])]
  simp [Except.map]

/-- A character always equals itself under case-sensitive comparison. -/
theorem charsEq_self (c : Char) : charsEq c c true = true := by
  simp [charsEq]

/-- The consuming loop of a trailing recursive wildcard accepts any remaining
input: either the input ends (falling through to the token loop's accepting
bottom) or a separator lets the empty continuation match. -/
theorem seqGo_ars_nil_tokens :
    ∀ (file : List Char) (fs : Bool) (fuel : Nat),
      matchMeasure (some .anyRecursiveSequence) file [] < fuel →
      matchGo fuel matchOptionsNew (some .anyRecursiveSequence) fs file [] = .isMatch := by
  intro file
  induction file with
  | nil =>
    intro fs fuel h
    have h1 : matchMeasure (some .anyRecursiveSequence) ([] : List Char) [] = 1 := by
      simp [matchMeasure]
    rw [h1] at h
    obtain ⟨f, rfl⟩ : ∃ f, fuel = f + 2 := ⟨fuel - 2, by omega⟩
    simp [matchGo]
  | cons c cs ih =>
    intro fs fuel h
    have hmeas : matchMeasure (some .anyRecursiveSequence) (c :: cs) [] =
        3 * cs.length + 4 := by
      simp [matchMeasure]; ring
    rw [hmeas] at h
    obtain ⟨f, rfl⟩ : ∃ f, fuel = f + 1 := ⟨fuel - 1, by omega⟩
    simp only [matchGo]
    rw [if_neg (by simp [matchOptionsNew])]
    by_cases hsep : (c = '/')
    · rw [if_neg (by simp [hsep])]
      rw [if_neg (by simp [matchOptionsNew])]
      cases cs with
      | nil =>
        obtain ⟨g, rfl⟩ : ∃ g, f = g + 1 := ⟨f - 1, by omega⟩
        simp [matchGo]
      | cons d ds =>
        have h1 : matchGo f matchOptionsNew none (c = '/') (d :: ds) [] =
            .subPatternDoesntMatch := by
          obtain ⟨g, rfl⟩ : ∃ g, f = g + 1 := ⟨f - 1, by omega⟩
          simp [matchGo]
        rw [h1]
        refine ih _ f ?_
        have : matchMeasure (some .anyRecursiveSequence) (d :: ds) [] =
            3 * (d :: ds).length + 1 := by simp [matchMeasure]; ring
        rw [this]
        simp only [List.length_cons] at h ⊢
        omega
    · rw [if_pos (by simp [hsep])]
      refine ih _ f ?_
      have : matchMeasure (some .anyRecursiveSequence) cs [] = 3 * cs.length + 1 := by
        simp [matchMeasure]; ring
      rw [this]
      omega

/-- A trailing recursive wildcard matches whatever remains. -/
theorem matchGo_ars_last :
    ∀ (fs : Bool) (file : List Char) (fuel : Nat),
      matchMeasure none file [.anyRecursiveSequence] < fuel →
      matchGo fuel matchOptionsNew none fs file [.anyRecursiveSequence] = .isMatch := by
  intro fs file fuel h
  have hmeas : matchMeasure none file [.anyRecursiveSequence] = 5 * file.length + 2 := by
    simp [matchMeasure]; ring
  rw [hmeas] at h
  obtain ⟨f, rfl⟩ : ∃ f, fuel = f + 1 := ⟨fuel - 1, by omega⟩
  simp only [matchGo]
  cases file with
  | nil =>
    have h1 : matchGo f matchOptionsNew none fs [] [] = .isMatch := by
      obtain ⟨g, rfl⟩ : ∃ g, f = g + 1 := ⟨f - 1, by omega⟩
      simp [matchGo]
    rw [h1]
  | cons c cs =>
    have h1 : matchGo f matchOptionsNew none fs (c :: cs) [] = .subPatternDoesntMatch := by
      obtain ⟨g, rfl⟩ : ∃ g, f = g + 1 := ⟨f - 1, by omega⟩
      simp [matchGo]
    rw [h1]
    refine seqGo_ars_nil_tokens _ fs f ?_
    have : matchMeasure (some .anyRecursiveSequence) (c :: cs) [] =
        3 * (c :: cs).length + 1 := by simp [matchMeasure]; ring
    rw [this]
    simp only [List.length_cons] at h ⊢
    omega

/-- A literal-prefix directory pattern `lit/**` matches every path that
extends `lit/`. -/
theorem matchGo_literal_prefix :
    ∀ (pre t : List Char) (fs : Bool) (fuel : Nat),
      matchMeasure none (pre ++ '/' :: t)
        (pre.map .char ++ [.char '/', .anyRecursiveSequence]) < fuel →
      matchGo fuel matchOptionsNew none fs (pre ++ '/' :: t)
        (pre.map .char ++ [.char '/', .anyRecursiveSequence]) = .isMatch := by
  intro pre
  induction pre with
  | nil =>
    intro t fs fuel h
    obtain ⟨f, rfl⟩ : ∃ f, fuel = f + 1 := ⟨fuel - 1, by omega⟩
    have h1 : matchMeasure none (([] : List Char) ++ '/' :: t)
        (([] : List Char).map .char ++ [.char '/', .anyRecursiveSequence]) =
        7 * t.length + 11 := by
      simp [matchMeasure]; ring
    rw [h1] at h
    simp only [List.nil_append, List.map_nil, matchGo]
    rw [if_pos (by simp [tokenMatchesChar, charsEq_self, matchOptionsNew])]
    refine matchGo_ars_last _ t f ?_
    have h2 : matchMeasure none t [.anyRecursiveSequence] = 5 * t.length + 2 := by
      simp [matchMeasure]; ring
    rw [h2]
    omega
  | cons c pre ih =>
    intro t fs fuel h
    obtain ⟨f, rfl⟩ : ∃ f, fuel = f + 1 := ⟨fuel - 1, by omega⟩
    have key : ∀ x y : Nat, (x + y + 1) * (2 * (x + 2) + 3) + 2 * (x + 2) <
        (x + 1 + y + 1) * (2 * (x + 1 + 2) + 3) + 2 * (x + 1 + 2) := by
      intro x y
      have hmul := Nat.mul_le_mul (show x + y + 1 ≤ x + 1 + y + 1 by omega)
        (show 2 * (x + 2) + 3 ≤ 2 * (x + 1 + 2) + 3 by omega)
      omega
    have hsrc : matchMeasure none ((c :: pre) ++ '/' :: t)
        ((c :: pre).map .char ++ [.char '/', .anyRecursiveSequence]) =
        (pre.length + 1 + t.length + 1) * (2 * (pre.length + 1 + 2) + 3) +
          2 * (pre.length + 1 + 2) := by
      simp [matchMeasure]; ring
    have hdst : matchMeasure none (pre ++ '/' :: t)
        (pre.map .char ++ [.char '/', .anyRecursiveSequence]) =
        (pre.length + t.length + 1) * (2 * (pre.length + 2) + 3) +
          2 * (pre.length + 2) := by
      simp [matchMeasure]; ring
    rw [hsrc] at h
    simp only [List.cons_append, List.map_cons, matchGo]
    rw [if_pos (by simp [tokenMatchesChar, charsEq_self, matchOptionsNew])]
    refine ih t _ f ?_
    rw [hdst]
    have := key pre.length t.length
    omega

/-- A slash-joined list of well-formed names contains no backslash. -/
theorem relString_no_backslash :
    ∀ {l : List String}, (∀ n ∈ l, wfName n = true) →
      ∀ c ∈ (relString l).data, c ≠ '\\' := by
  intro l
  induction l with
  | nil => intro _ c hc; cases hc
  | cons n l2 ih =>
    intro h c hc
    cases l2 with
    | nil => exact ((wfName_spec (h n (List.mem_cons_self _ _))).2 c hc).2
    | cons m l3 =>
      have hc2 : c ∈ (n.data ++ ['/']) ++ (relString (m :: l3)).data := by
        simpa [relString, String.data_append, List.append_assoc] using hc
      rcases List.mem_append.mp hc2 with hc3 | hc3
      · rcases List.mem_append.mp hc3 with hc4 | hc4
        · exact ((wfName_spec (h n (List.mem_cons_self _ _))).2 c hc4).2
        · rcases List.mem_singleton.mp hc4 with rfl
          decide
      · exact ih (fun x hx => h x (List.mem_cons_of_mem _ hx)) c hc3

/-- Replacing backslashes is the identity on a backslash-free string. -/
theorem replaceBackslashL_eq_self {xs : List Char} (h : ∀ c ∈ xs, c ≠ '\\') :
    replaceBackslashL xs = xs := by
  induction xs with
  | nil => rfl
  | cons c cs ih =>
    simp only [replaceBackslashL, List.map_cons]
    rw [if_neg (h c (List.mem_cons_self _ _))]
    have := ih (fun d hd => h d (List.mem_cons_of_mem _ hd))
    simp only [replaceBackslashL] at this
    rw [this]

/-- C3: for a literal (metacharacter-free) ignore rule, no entry of a
successful `process_directory` run over a well-formed tree has a path inside
that rule's subtree — the walker is not pruned, but every file under the
directory is rejected by the compiled directory-form rule `rule + "/**"`. -/
theorem directory_rule_excludes_subtree
    (env : Env) (root : FTree) (ignore : List String) (res : List FileHash)
    (hw : wfForest root = true)
    (h : processDirectory env root ignore = .ok res)
    (r : String) (hr : r ∈ ignore) (hlit : literalStr (normalizeRule r) = true)
    (fh : FileHash) (hm : fh ∈ res) :
    ¬ (normalizeRule r ++ "/").data <+: fh.path.data := by
  intro hpre
  obtain ⟨dp, fp, hdp, _, hpe⟩ := processDirectory_ok_elim h
  obtain ⟨e, he, hdir, hdpfalse, _, hpath, _⟩ := processEntries_mem hpe hm
  obtain ⟨pat, hpatmem, hpateq⟩ := mapExcept_mem hdp hr
  rw [patternNew_literal hlit] at hpateq
  injection hpateq with hpateq
  -- the walked path is backslash-free, so the stored path equals it
  have hwfnames : ∀ n ∈ e.rel, wfName n = true := by
    rcases List.mem_cons.mp he with he1 | he1
    · rw [he1] at hdir; cases hdir
    · obtain ⟨l, hl, _, hwf⟩ := walkForest_wf hw he1
      simp only [List.nil_append] at hl
      rw [hl]
      exact hwf
  have hdata : fh.path.data = (relString e.rel).data := by
    rw [hpath]
    exact replaceBackslashL_eq_self (relString_no_backslash hwfnames)
  rw [hdata] at hpre
  obtain ⟨t, ht⟩ := hpre
  have ht2 : (relString e.rel).data = (normalizeRule r).data ++ '/' :: t := by
    rw [← ht, String.data_append]
    simp
  -- the compiled directory rule matches the walked path
  have hmatch : matchesPathWith pat (relString e.rel) matchOptionsNew = true := by
    simp only [matchesPathWith, matchesWith, matchesFrom, decide_eq_true_eq]
    rw [← hpateq, ht2]
    exact matchGo_literal_prefix _ _ _ _ (Nat.lt_succ_self _)
  have : dp.any (fun p => matchesPathWith p (relString e.rel) matchOptionsNew) = true :=
    List.any_eq_true.mpr ⟨pat, hpatmem, hmatch⟩
  rw [hdpfalse] at this
  cases this

/-- The scenario tree of the subtree-exclusion witness. -/
def skipTree : FTree :=
  .fileF "keep.txt" (some (strBytes "keep"))
    (.dirF "skip" (.fileF "inner.txt" (some (strBytes "x")) .nilF) .nilF)

/-- The digest of the four-byte file "keep". -/
def hashOfKeep : String := "6ca7ea2feefc88ecb5ed6356ed963f47dc9137f82526fdd25d618ea626d0803f"

/-- Witness: with rule "skip", the surviving entry "keep.txt" does not lie
under "skip/". -/
theorem directory_rule_excludes_subtree_witness :
    wfForest skipTree = true ∧
    processDirectory envDemo skipTree ["skip"] = .ok [⟨"keep.txt", hashOfKeep⟩] ∧
    literalStr (normalizeRule "skip") = true ∧
    ¬ (normalizeRule "skip" ++ "/").data <+: "keep.txt".data :=
  ⟨by rfl, by rfl, by rfl,
   directory_rule_excludes_subtree envDemo skipTree ["skip"] [⟨"keep.txt", hashOfKeep⟩]
     (by rfl) (by rfl) "skip" (List.mem_cons_self _ _) (by rfl)
     ⟨"keep.txt", hashOfKeep⟩ (List.mem_cons_self _ _)⟩

/-! ## C5: an invalid glob fails before any traversal -/

/-- A leading star count never exceeds the length. -/
theorem countStars_le_length : ∀ rs : List Char, countStars rs ≤ rs.length := by
  intro rs
  induction rs with
  | nil => simp [countStars]
  | cons c rest ih =>
    simp only [countStars, List.length_cons]
    split <;> omega

/-- Appending after a separator does not change the leading star run. -/
theorem countStars_append_slash (rs xs : List Char) :
    countStars (rs ++ '/' :: xs) = countStars rs := by
  induction rs with
  | nil => simp [countStars]
  | cons c rest ih =>
    by_cases hc : c = '*' <;> simp [countStars, hc, ih, List.append_eq]

/-- A found range close lies inside the searched text. -/
theorem findClose_some_lt : ∀ {a : List Char} {j : Nat}, findClose a = some j → j < a.length := by
  intro a
  induction a with
  | nil => intro j h; cases h
  | cons c rest ih =>
    intro j h
    simp only [findClose] at h
    by_cases hc : c = ']'
    · rw [if_pos hc] at h
      injection h with h
      simp only [List.length_cons]
      omega
    · rw [if_neg hc] at h
      cases hfc : findClose rest with
      | none => rw [hfc] at h; cases h
      | some j2 =>
        rw [hfc] at h
        simp at h
        have := ih hfc
        simp only [List.length_cons]
        omega

/-- A close found in the left part is the close of the whole. -/
theorem findClose_append_some : ∀ {a : List Char} {j : Nat} (b : List Char),
    findClose a = some j → findClose (a ++ b) = some j := by
  intro a
  induction a with
  | nil => intro j b h; cases h
  | cons c rest ih =>
    intro j b h
    simp only [findClose] at h
    simp only [List.cons_append, findClose, List.append_eq]
    by_cases hc : c = ']'
    · rw [if_pos hc] at h ⊢
      exact h
    · rw [if_neg hc] at h ⊢
      cases hfc : findClose rest with
      | none => rw [hfc] at h; cases h
      | some j2 =>
        rw [hfc] at h
        simp at h
        rw [ih b hfc]
        simp [h]

/-- No close on either side means no close overall. -/
theorem findClose_append_none : ∀ {a : List Char} (b : List Char),
    findClose a = none → findClose b = none → findClose (a ++ b) = none := by
  intro a
  induction a with
  | nil => intro b _ hb; simpa using hb
  | cons c rest ih =>
    intro b ha hb
    simp only [findClose] at ha
    simp only [List.cons_append, findClose, List.append_eq]
    by_cases hc : c = ']'
    · rw [if_pos hc] at ha; cases ha
    · rw [if_neg hc] at ha ⊢
      cases hfc : findClose rest with
      | none => rw [ih b hfc hb]; rfl
      | some j => rw [hfc] at ha; simp at ha

/-- The appended wildcard tail contains no range close. -/
theorem findClose_tail : findClose ['/', '*', '*'] = none := by decide

/-- The head of an append with a nonempty left part. -/
theorem head?_append_left {a b : List α} (h : a ≠ []) : (a ++ b).head? = a.head? := by
  cases a with
  | nil => exact absurd rfl h
  | cons x xs => simp

/-- Appending "/**" to a pattern that fails to compile preserves the failure,
with the same position and message: the appended text cannot close an open
range (it has no ']'), cannot extend a star run into validity, and is never
reached before the original error. -/
theorem parseGo_append_error :
    ∀ (N : Nat) (rest : List Char), rest.length ≤ N →
      ∀ (i : Nat) (prev : Option Char) (acc : List PatternToken) (f1 f2 : Nat)
        (er : PatternError),
        rest.length < f1 → (rest ++ ['/', '*', '*']).length < f2 →
        parseGo f1 i prev rest acc = .error er →
        parseGo f2 i prev (rest ++ ['/', '*', '*']) acc = .error er := by
  intro N
  induction N with
  | zero =>
    intro rest hlen i prev acc f1 f2 er h1 h2 hb
    have hnil : rest = [] := List.eq_nil_of_length_eq_zero (by omega)
    subst hnil
    obtain ⟨g1, rfl⟩ : ∃ g, f1 = g + 1 := ⟨f1 - 1, by omega⟩
    simp [parseGo] at hb
  | succ N ihN =>
    intro rest hlen i prev acc f1 f2 er h1 h2 hb
    cases rest with
    | nil =>
      obtain ⟨g1, rfl⟩ : ∃ g, f1 = g + 1 := ⟨f1 - 1, by omega⟩
      simp [parseGo] at hb
    | cons c rs =>
      obtain ⟨g1, rfl⟩ : ∃ g, f1 = g + 1 := ⟨f1 - 1, by omega⟩
      obtain ⟨g2, rfl⟩ : ∃ g, f2 = g + 1 := ⟨f2 - 1, by omega⟩
      have hlen2 : rs.length ≤ N := by simp only [List.length_cons] at hlen; omega
      have h1b : rs.length < g1 := by simp only [List.length_cons] at h1; omega
      have h2b : (rs ++ ['/', '*', '*']).length < g2 := by
        simp only [List.cons_append, List.length_cons] at h2
        omega
      simp only [parseGo] at hb
      simp only [List.cons_append, parseGo, List.append_eq]
      by_cases hq : c = '?'
      · rw [if_pos hq] at hb ⊢
        exact ihN rs hlen2 _ _ _ g1 g2 er h1b h2b hb
      · rw [if_neg hq] at hb ⊢
        by_cases hst : c = '*'
        · rw [if_pos hst] at hb ⊢
          rw [countStars_append_slash rs ['*', '*']]
          by_cases h3 : countStars rs + 1 > 2
          · rw [if_pos h3] at hb ⊢
            exact hb
          · rw [if_neg h3] at hb ⊢
            by_cases h4 : countStars rs + 1 = 2
            · rw [if_pos h4] at hb ⊢
              by_cases h5 : (i = 0 ∨ prev = some '/')
              · rw [if_pos h5] at hb ⊢
                have hcs1 : countStars rs = 1 := by omega
                have hrs1 : 1 ≤ rs.length := by
                  have := countStars_le_length rs
                  omega
                have hn1 : countStars rs + 1 - 1 = 1 := by omega
                rw [hn1] at hb ⊢
                rw [h4] at hb ⊢
                rw [List.drop_append_of_le_length hrs1]
                by_cases h6 : (rs.drop 1).head? = some '/'
                · rw [if_pos h6] at hb
                  have hd1ne : rs.drop 1 ≠ [] := by
                    intro hh
                    rw [hh] at h6
                    cases h6
                  rw [if_pos (by rw [head?_append_left hd1ne]; exact h6)]
                  have hrs2 : 2 ≤ rs.length := by
                    have : (rs.drop 1).length ≠ 0 := fun hh =>
                      hd1ne (List.eq_nil_of_length_eq_zero hh)
                    simp only [List.length_drop] at this
                    omega
                  rw [List.drop_append_of_le_length hrs2]
                  refine ihN (rs.drop 2) ?_ _ _ _ g1 g2 er ?_ ?_ hb
                  · simp only [List.length_drop]; omega
                  · simp only [List.length_drop]; omega
                  · simp only [List.length_append, List.length_drop]
                    simp only [List.length_append] at h2b
                    omega
                · rw [if_neg h6] at hb
                  by_cases h7 : rs.drop 1 = []
                  · rw [if_pos h7] at hb
                    exact Except.noConfusion hb
                  · rw [if_neg h7] at hb
                    rw [if_neg (by rw [head?_append_left h7]; exact h6)]
                    rw [if_neg (by simp)]
                    exact hb
              · rw [if_neg h5] at hb ⊢
                exact hb
            · rw [if_neg h4] at hb ⊢
              have hcs0 : countStars rs = 0 := by omega
              rw [hcs0] at hb ⊢
              simp only [Nat.add_sub_cancel, List.drop_zero] at hb ⊢
              exact ihN rs hlen2 _ _ _ g1 g2 er h1b h2b hb
        · rw [if_neg hst] at hb ⊢
          by_cases hbr : c = '['
          · rw [if_pos hbr] at hb ⊢
            by_cases hc1 : ((c :: rs).length ≥ 4 ∧ rs.head? = some '!')
            · rw [if_pos hc1] at hb
              have hrs3 : 3 ≤ rs.length := by
                have := hc1.1
                simp only [List.length_cons] at this
                omega
              have hrsne : rs ≠ [] := by intro hh; rw [hh] at hrs3; simp at hrs3
              rw [if_pos (by
                refine ⟨?_, by rw [head?_append_left hrsne]; exact hc1.2⟩
                simp only [List.length_cons, List.length_append]
                omega)]
              rw [List.drop_append_of_le_length (by omega : 2 ≤ rs.length)]
              cases hfc : findClose (rs.drop 2) with
              | none =>
                simp only [hfc] at hb
                simp only [findClose_append_none _ hfc findClose_tail]
                exact hb
              | some j =>
                simp only [hfc] at hb
                simp only [findClose_append_some _ hfc]
                have hjlt := findClose_some_lt hfc
                simp only [List.length_drop] at hjlt
                rw [List.drop_append_of_le_length (by omega : 1 ≤ rs.length),
                  List.take_append_of_le_length (by simp only [List.length_drop]; omega),
                  List.drop_append_of_le_length (by omega : j + 3 ≤ rs.length)]
                refine ihN (rs.drop (j + 3)) ?_ _ _ _ g1 g2 er ?_ ?_ hb
                · simp only [List.length_drop]; omega
                · simp only [List.length_drop]; omega
                · simp only [List.length_append, List.length_drop]
                  simp only [List.length_append] at h2b
                  omega
            · rw [if_neg hc1] at hb
              by_cases hc2 : ((c :: rs).length ≥ 3 ∧ rs.head? ≠ some '!')
              · rw [if_pos hc2] at hb
                have hrs2 : 2 ≤ rs.length := by
                  have := hc2.1
                  simp only [List.length_cons] at this
                  omega
                have hrsne : rs ≠ [] := by intro hh; rw [hh] at hrs2; simp at hrs2
                rw [if_neg (by
                  rintro ⟨_, hh⟩
                  rw [head?_append_left hrsne] at hh
                  exact hc2.2 hh)]
                rw [if_pos (by
                  refine ⟨?_, by rw [head?_append_left hrsne]; exact hc2.2⟩
                  simp only [List.length_cons, List.length_append]
                  omega)]
                rw [List.drop_append_of_le_length (by omega : 1 ≤ rs.length)]
                cases hfc : findClose (rs.drop 1) with
                | none =>
                  simp only [hfc] at hb
                  simp only [findClose_append_none _ hfc findClose_tail]
                  exact hb
                | some j =>
                  simp only [hfc] at hb
                  simp only [findClose_append_some _ hfc]
                  have hjlt := findClose_some_lt hfc
                  simp only [List.length_drop] at hjlt
                  rw [List.take_append_of_le_length (by omega : j + 1 ≤ rs.length),
                    List.drop_append_of_le_length (by omega : j + 2 ≤ rs.length)]
                  refine ihN (rs.drop (j + 2)) ?_ _ _ _ g1 g2 er ?_ ?_ hb
                  · simp only [List.length_drop]; omega
                  · simp only [List.length_drop]; omega
                  · simp only [List.length_append, List.length_drop]
                    simp only [List.length_append] at h2b
                    omega
              · rw [if_neg hc2] at hb
                -- the open bracket has no closing text even with the tail
                cases rs with
                | nil =>
                  rw [if_neg (by simp), if_pos (by simp)]
                  simp only [List.nil_append]
                  have hfc : findClose ((['/', '*', '*'] : List Char).drop 1) = none := by
                    decide
                  simp only [hfc]
                  exact hb
                | cons x rs2 =>
                  cases rs2 with
                  | nil =>
                    by_cases hx : x = '!'
                    · subst hx
                      rw [if_pos (by constructor <;> simp)]
                      have hfc : findClose ((['!'] ++ ['/', '*', '*']).drop 2) = none := by
                        decide
                      simp only [hfc]
                      exact hb
                    · rw [if_neg (by
                        rintro ⟨_, hh⟩
                        simp only [List.cons_append, List.nil_append, List.head?_cons,
                          Option.some.injEq] at hh
                        exact hx hh)]
                      rw [if_pos (by
                        refine ⟨by simp, ?_⟩
                        simp only [List.cons_append, List.nil_append, List.head?_cons]
                        intro hh
                        injection hh with hh
                        exact hx hh)]
                      have hfc : findClose (([x] ++ ['/', '*', '*']).drop 1) = none := by
                        simp only [List.cons_append, List.nil_append, List.drop_succ_cons,
                          List.drop_zero]
                        exact findClose_tail
                      simp only [hfc]
                      exact hb
                  | cons y rs3 =>
                    cases rs3 with
                    | nil =>
                      have hx : x = '!' := by
                        by_contra hx
                        exact hc2 ⟨by simp, by
                          simp only [List.head?_cons]
                          intro hh
                          injection hh with hh
                          exact hx hh⟩
                      subst hx
                      rw [if_pos (by constructor <;> simp)]
                      have hfc : findClose ((('!' :: y :: ([] : List Char)) ++
                          ['/', '*', '*']).drop 2) = none := by
                        simp only [List.cons_append, List.nil_append, List.drop_succ_cons,
                          List.drop_zero]
                        exact findClose_tail
                      simp only [hfc]
                      exact hb
                    | cons z rs4 =>
                      exfalso
                      by_cases hx : x = '!'
                      · exact hc1 ⟨by simp, by rw [hx]; rfl⟩
                      · exact hc2 ⟨by simp, by
                          simp only [List.head?_cons]
                          intro hh
                          injection hh with hh
                          exact hx hh⟩
          · rw [if_neg hbr] at hb ⊢
            exact ihN rs hlen2 _ _ _ g1 g2 er h1b h2b hb

/-- `Pattern::new` on an invalid glob still fails, with the identical error,
after the directory-form wrapper appends "/**". -/
theorem patternNew_append_error {s : String} {er : PatternError}
    (h : patternNew s = .error er) : patternNew (s ++ "/**") = .error er := by
  unfold patternNew parseFrom at h ⊢
  have hb : parseGo (s.data.length + 1) 0 none s.data [] = .error er := by
    cases hp : parseGo (s.data.length + 1) 0 none s.data [] with
    | error e2 =>
      rw [hp] at h
      have he : e2 = er := by simpa [Except.map] using h
      rw [he]
    | ok l => rw [hp] at h; simp [Except.map] at h
  have hdata : (s ++ "/**").data = s.data ++ ['/', '*', '*'] := by
    rw [String.data_append]
  rw [hdata]
  rw [parseGo_append_error s.data.length s.data le_rfl 0 none []
    (s.data.length + 1) ((s.data ++ ['/', '*', '*']).length + 1) er
    (Nat.lt_succ_self _) (Nat.lt_succ_self _) hb]
  rfl

/-- A failing input makes the whole `collect::<Result>` fail. -/
theorem mapExcept_fail {f : α → Except ε β} :
    ∀ {l : List α} {a : α} {e : ε}, a ∈ l → f a = .error e →
      ∃ e2, mapExcept f l = .error e2 := by
  intro l
  induction l with
  | nil => intro a e ha; cases ha
  | cons x xs ih =>
    intro a e ha hf
    simp only [mapExcept]
    cases hx : f x with
    | error e2 => exact ⟨e2, rfl⟩
    | ok b =>
      rcases List.mem_cons.mp ha with ha1 | ha1
      · subst ha1; rw [hx] at hf; cases hf
      · obtain ⟨e2, he2⟩ := ih ha1 hf
        rw [he2]
        exact ⟨e2, rfl⟩

/-- C5: when any supplied ignore string is not a valid glob, the compilation
of the directory-form rules fails, so `process_directory` returns a
pattern-syntax error whose value does not depend on the directory tree at
all: no directory entry is visited and no file is hashed first. -/
theorem invalid_glob_fails_before_walk (env : Env) (ignore : List String) (r : String)
    (er : PatternError) (hr : r ∈ ignore)
    (hbad : patternNew (normalizeRule r) = .error er) :
    ∃ er2, ∀ root : FTree, processDirectory env root ignore = .error (.globPattern er2) := by
  have hwrap : patternNew (normalizeRule r ++ "/**") = .error er := patternNew_append_error hbad
  obtain ⟨er2, hmap⟩ := mapExcept_fail (f := fun p => patternNew (normalizeRule p ++ "/**"))
    hr (by exact hwrap)
  refine ⟨er2, fun root => ?_⟩
  simp only [processDirectory, hmap]

/-- Witness: the lone rule "[" is an invalid glob; the run fails with a
pattern-syntax error on every tree, here instantiated at the log-scenario
tree and at the empty root. -/
theorem invalid_glob_fails_before_walk_witness :
    ("[" ∈ (["["] : List String)) ∧
    patternNew (normalizeRule "[") = .error ⟨0, errInvalidRange⟩ ∧
    ∃ er2, ∀ root : FTree,
      processDirectory envDemo root ["["] = .error (.globPattern er2) :=
  ⟨List.mem_cons_self _ _, by rfl,
   invalid_glob_fails_before_walk envDemo ["["] "[" ⟨0, errInvalidRange⟩
     (List.mem_cons_self _ _) (by rfl)⟩

end Kushn

